import Mathlib

/-!
# Verification of `parser/parserbuffer.go` (FireSpotter/gossip)

`parserBuffer` couples an `io.Pipe` with a `bufio.Reader` and offers two pull
operations, `NextLine` and `NextChunk`, plus `Stop`.

The standard-library types `io.Pipe` and `bufio.Reader` are modelled after
their Go sources (`Pipe`, `Reader`); `NextLine`, `NextChunk` and `Stop` follow
`parserbuffer.go` statement by statement.

The embedding is sequential.  The producer side is represented by the list of
writes it performs, in order (`Pipe.pending`); a pipe read with nothing pending
and nobody closed is the `blocked` outcome (the Go call would wait forever).
Go strings and byte slices are lists of bytes.
-/

namespace Gossip

/-- A Go `byte`. -/
abbrev Byte := Fin 256

/-- The byte `'\r'`. -/
def CR : Byte := 13

/-- The byte `'\n'`. -/
def LF : Byte := 10

/-- Go `error` values that can come out of the pipe or the buffered reader. -/
inductive Error where
  | ErrClosedPipe
  | EOF
  | ErrNoProgress
  | other (code : Nat)
  deriving DecidableEq, Repr

/-- How a call ends: it returns, waits forever on the pipe, or panics.
`outOfFuel` is the bound of the loop encodings; the operations never produce it
(see `ReadByte_total`, `NextLine_total`, `NextChunk_total`). -/
inductive Outcome (α : Type) where
  | ret (a : α)
  | blocked
  | panicked
  | outOfFuel
  deriving DecidableEq, Repr

/-- State of an `io.Pipe` as seen from the read side.
`pending` are the producer's writes not yet (fully) handed over, oldest first;
`rerr` is set once the read end has been closed; `werr` is the error the write
end was closed with, if it was (it takes effect once `pending` is drained). -/
structure Pipe where
  pending : List (List Byte)
  rerr : Bool
  werr : Option Error
  deriving DecidableEq, Repr

/-- Go `(*PipeReader).Read(p)` with `len(p) = n`: fails once the read end is closed,
otherwise copies up to `n` bytes of the oldest pending write (the write stays
pending while it has bytes left), otherwise reports the writer's close error,
otherwise waits. -/
def Pipe.read (p : Pipe) (n : Nat) : Outcome ((List Byte × Option Error) × Pipe) :=
  if p.rerr then
    Outcome.ret (([], some Error.ErrClosedPipe), p)
  else
    match p.pending with
    | w :: ws =>
      match w.drop n with
      | [] => Outcome.ret ((w.take n, none), { p with pending := ws })
      | c :: cs => Outcome.ret ((w.take n, none), { p with pending := (c :: cs) :: ws })
    | [] =>
      match p.werr with
      | some e => Outcome.ret (([], some e), p)
      | none => Outcome.blocked

/-- Go `(*PipeReader).Close()`: marks the read end closed. -/
def Pipe.closeRead (p : Pipe) : Pipe :=
  { p with rerr := true }

/-- A `bufio.Reader`: `buf` is the look-ahead buffer `b.buf[b.r:b.w]`, `err` the
sticky error `b.err`, `rd` the wrapped pipe. -/
structure Reader where
  buf : List Byte
  err : Option Error
  rd : Pipe
  deriving DecidableEq, Repr

/-- Size of the buffer made by `bufio.NewReader`. -/
def defaultBufSize : Nat := 4096

/-- Bound on consecutive empty reads in `bufio`. -/
def maxConsecutiveEmptyReads : Nat := 100

/-- Go `(*Reader).Buffered()`: the number of bytes in the look-ahead buffer. -/
def Reader.Buffered (b : Reader) : Nat :=
  b.buf.length

/-- The read loop of `(*Reader).fill`: one pipe read into the free space; an
error is stored in `b.err`; an empty read without error is retried. -/
def Reader.fillLoop : Nat → Reader → Outcome Reader
  | 0, b => Outcome.ret { b with err := some Error.ErrNoProgress }
  | i + 1, b =>
    match b.rd.read (defaultBufSize - b.buf.length) with
    | Outcome.ret ((data, e), p) =>
      match e with
      | some e => Outcome.ret { buf := b.buf ++ data, err := some e, rd := p }
      | none =>
        if data.length > 0 then
          Outcome.ret { buf := b.buf ++ data, err := b.err, rd := p }
        else
          Reader.fillLoop i { buf := b.buf ++ data, err := b.err, rd := p }
    | Outcome.blocked => Outcome.blocked
    | Outcome.panicked => Outcome.panicked
    | Outcome.outOfFuel => Outcome.outOfFuel

/-- Go `(*Reader).fill`: panics on a full buffer, else runs the read loop. -/
def Reader.fill (b : Reader) : Outcome Reader :=
  if b.buf.length ≥ defaultBufSize then Outcome.panicked
  else Reader.fillLoop maxConsecutiveEmptyReads b

/-- The loop `for b.r == b.w` of `(*Reader).ReadByte`, bounded by `k` rounds. -/
def Reader.readByteLoop : Nat → Reader → Outcome ((Byte × Option Error) × Reader)
  | 0, _ => Outcome.outOfFuel
  | k + 1, b =>
    match b.buf with
    | c :: cs => Outcome.ret ((c, none), { b with buf := cs })
    | [] =>
      match b.err with
      | some e => Outcome.ret ((0, some e), { b with err := none })
      | none =>
        match b.fill with
        | Outcome.ret b' => Reader.readByteLoop k b'
        | Outcome.blocked => Outcome.blocked
        | Outcome.panicked => Outcome.panicked
        | Outcome.outOfFuel => Outcome.outOfFuel

/-- Go `(*Reader).ReadByte()`.  After one `fill` the buffer is non-empty or the
error is set, so two rounds of the loop always suffice. -/
def Reader.ReadByte (b : Reader) : Outcome ((Byte × Option Error) × Reader) :=
  Reader.readByteLoop 2 b

/-- The `parserBuffer` struct.  `reader` wraps `pipeReader`, and the embedded
`io.Writer` is the other end of the same pipe, so the one `Pipe` inside
`reader` stands for all three; the field `buffer` is never used by the code. -/
structure parserBuffer where
  reader : Reader
  deriving DecidableEq, Repr

/-- Source `newParserBuffer()`: a fresh pipe behind an empty buffered reader. -/
def newParserBuffer : parserBuffer :=
  { reader := { buf := [], err := none, rd := { pending := [], rerr := false, werr := none } } }

/-- All bytes not yet consumed: the look-ahead buffer, then the pending writes. -/
def Reader.unread (b : Reader) : List Byte :=
  b.buf ++ b.rd.pending.flatten

/-- The scan loop of `NextLine` (lines 45-51), from scan byte `b` and
accumulated `byteLine`.  Returns the final `b`, `byteLine` and `err`. -/
def nextLineLoop : Nat → Byte → List Byte → Reader →
    Outcome ((Byte × List Byte × Option Error) × Reader)
  | 0, _, _, _ => Outcome.outOfFuel
  | k + 1, b, byteLine, r =>
    if b ≠ CR ∧ b ≠ LF then
      match r.ReadByte with
      | Outcome.ret ((b', some e), r') => Outcome.ret ((b', byteLine, some e), r')
      | Outcome.ret ((b', none), r') => nextLineLoop k b' (byteLine ++ [b']) r'
      | Outcome.blocked => Outcome.blocked
      | Outcome.panicked => Outcome.panicked
      | Outcome.outOfFuel => Outcome.outOfFuel
    else
      Outcome.ret ((b, byteLine, none), r)

/-- Source `(*parserBuffer).NextLine()`: the result is `(response, err)` and the new
state.  Each round of the scan loop consumes one unread byte, so the bound
`unread + 1` is never hit. -/
def parserBuffer.NextLine (pb : parserBuffer) :
    Outcome ((List Byte × Option Error) × parserBuffer) :=
  match nextLineLoop (pb.reader.unread.length + 1) 0 [] pb.reader with
  | Outcome.ret ((_, _, some e), r) => Outcome.ret (([], some e), { reader := r })
  | Outcome.ret ((b, byteLine, none), r) =>
    let after : Outcome (Option Error × Reader) :=
      if b = CR ∧ r.Buffered > 0 then
        match r.ReadByte with
        | Outcome.ret ((_, e), r') => Outcome.ret (e, r')
        | Outcome.blocked => Outcome.blocked
        | Outcome.panicked => Outcome.panicked
        | Outcome.outOfFuel => Outcome.outOfFuel
      else Outcome.ret (none, r)
    match after with
    | Outcome.ret (some e, r') => Outcome.ret (([], some e), { reader := r' })
    | Outcome.ret (none, r') =>
      match byteLine with
      | [] => Outcome.panicked
      | _ :: _ => Outcome.ret ((byteLine.dropLast, none), { reader := r' })
    | Outcome.blocked => Outcome.blocked
    | Outcome.panicked => Outcome.panicked
    | Outcome.outOfFuel => Outcome.outOfFuel
  | Outcome.blocked => Outcome.blocked
  | Outcome.panicked => Outcome.panicked
  | Outcome.outOfFuel => Outcome.outOfFuel

/-- The loop of `NextChunk` (lines 72-79), from counter `total` and
accumulated `data`. -/
def nextChunkLoop : Nat → Int → Int → List Byte → Reader →
    Outcome ((List Byte × Option Error) × Reader)
  | 0, _, _, _, _ => Outcome.outOfFuel
  | k + 1, total, n, data, r =>
    if total < n ∧ r.Buffered > 0 then
      match r.ReadByte with
      | Outcome.ret ((_, some e), r') => Outcome.ret (([], some e), r')
      | Outcome.ret ((b, none), r') => nextChunkLoop k (total + 1) n (data ++ [b]) r'
      | Outcome.blocked => Outcome.blocked
      | Outcome.panicked => Outcome.panicked
      | Outcome.outOfFuel => Outcome.outOfFuel
    else
      Outcome.ret ((data, none), r)

/-- Source `(*parserBuffer).NextChunk(n)`.  Each round takes one buffered byte, so the
bound `Buffered + 1` is never hit.  The `log.Debug` call has no effect on the
state or the result. -/
def parserBuffer.NextChunk (pb : parserBuffer) (n : Int) :
    Outcome ((List Byte × Option Error) × parserBuffer) :=
  match nextChunkLoop (pb.reader.Buffered + 1) 0 n [] pb.reader with
  | Outcome.ret (res, r) => Outcome.ret (res, { reader := r })
  | Outcome.blocked => Outcome.blocked
  | Outcome.panicked => Outcome.panicked
  | Outcome.outOfFuel => Outcome.outOfFuel

/-- Source `(*parserBuffer).Stop()`: closes the read end of the pipe. -/
def parserBuffer.Stop (pb : parserBuffer) : parserBuffer :=
  { reader := { pb.reader with rd := pb.reader.rd.closeRead } }

/-- The caller making `k` successive `NextLine` calls, collecting the results. -/
def nextLines : Nat → parserBuffer →
    Outcome (List (List Byte × Option Error) × parserBuffer)
  | 0, pb => Outcome.ret ([], pb)
  | k + 1, pb =>
    match pb.NextLine with
    | Outcome.ret (res, pb') =>
      match nextLines k pb' with
      | Outcome.ret (rs, pb'') => Outcome.ret (res :: rs, pb'')
      | Outcome.blocked => Outcome.blocked
      | Outcome.panicked => Outcome.panicked
      | Outcome.outOfFuel => Outcome.outOfFuel
    | Outcome.blocked => Outcome.blocked
    | Outcome.panicked => Outcome.panicked
    | Outcome.outOfFuel => Outcome.outOfFuel

/-- A buffer holding `buf`, with `ws` the writes still to come, open on both ends. -/
def mkBuffer (buf : List Byte) (ws : List (List Byte)) : parserBuffer :=
  { reader := { buf := buf, err := none, rd := { pending := ws, rerr := false, werr := none } } }

/-- A buffer holding `buf`, with `ws` the writes still to come, after which the
write end is closed with error `e`. -/
def mkEnding (buf : List Byte) (ws : List (List Byte)) (e : Error) : parserBuffer :=
  { reader := { buf := buf, err := none, rd := { pending := ws, rerr := false, werr := some e } } }

/-- The bytes of an ASCII string. -/
def bytes (s : String) : List Byte :=
  s.toList.map (fun c => Fin.ofNat c.toNat)

/-- The stream is live: no sticky error, read end open, and every write still to
come is non-empty. -/
def Reader.Fed (r : Reader) : Prop :=
  r.err = none ∧ r.rd.rerr = false ∧ ∀ w ∈ r.rd.pending, w ≠ []

instance (r : Reader) : Decidable r.Fed :=
  inferInstanceAs (Decidable (r.err = none ∧ r.rd.rerr = false ∧ ∀ w ∈ r.rd.pending, w ≠ []))

/-- Neither `'\r'` nor `'\n'` occurs in `s`. -/
def NoTerm (s : List Byte) : Prop :=
  ∀ x ∈ s, x ≠ CR ∧ x ≠ LF

instance (s : List Byte) : Decidable (NoTerm s) :=
  decidable_of_iff (s.all (fun x => decide (x ≠ CR ∧ x ≠ LF)) = true) (by simp [NoTerm])

/-- The caller-side framing of a list of lines, each followed by `term`. -/
def frame (term : List Byte) (lines : List (List Byte)) : List Byte :=
  (lines.map (fun l => l ++ term)).flatten

/-- Go `(*PipeWriter).Write(data)` as far as a sequential embedding has it: on a
pipe closed at either end it fails with `ErrClosedPipe` and hands over nothing;
on an open pipe the write becomes the newest pending write (that the Go call
returns only once reads have drained it is not represented). -/
def Pipe.write (p : Pipe) (data : List Byte) : (Nat × Option Error) × Pipe :=
  if p.rerr then ((0, some Error.ErrClosedPipe), p)
  else
    match p.werr with
    | some _ => ((0, some Error.ErrClosedPipe), p)
    | none => ((data.length, none), { p with pending := p.pending ++ [data] })

/-- The promoted method `pb.Write` of the embedded `io.Writer`, which
`newParserBuffer` sets to the write end of the pipe. -/
def parserBuffer.Write (pb : parserBuffer) (data : List Byte) :
    (Nat × Option Error) × parserBuffer :=
  match pb.reader.rd.write data with
  | (res, p) => (res, { reader := { pb.reader with rd := p } })

/-- The stream is Closed: `Stop` has closed the read end of the pipe. -/
def parserBuffer.Closed (pb : parserBuffer) : Prop :=
  pb.reader.rd.rerr = true

instance (pb : parserBuffer) : Decidable pb.Closed :=
  inferInstanceAs (Decidable (pb.reader.rd.rerr = true))

/-! ## The pipe and the buffered reader -/

theorem ReadByte_cons (r : Reader) (c : Byte) (cs : List Byte) (h : r.buf = c :: cs) :
    r.ReadByte = Outcome.ret ((c, none), { r with buf := cs }) := by
  simp [Reader.ReadByte, Reader.readByteLoop, h]

theorem Pipe_read_unread (p p' : Pipe) (n : Nat) (data : List Byte) (e : Option Error)
    (h : p.read n = Outcome.ret ((data, e), p')) :
    data ++ p'.pending.flatten = p.pending.flatten ∧ p'.rerr = p.rerr ∧ p'.werr = p.werr
      ∧ (e ≠ none → data = []) := by
  unfold Pipe.read at h
  split at h
  · simp at h
    obtain ⟨⟨h1, h2⟩, h3⟩ := h
    subst h1 h2 h3
    simp
  · split at h
    · rename_i w ws hp
      split at h
      · rename_i hd
        simp at h
        obtain ⟨⟨h1, h2⟩, h3⟩ := h
        subst h1 h2 h3
        have := List.take_append_drop n w
        rw [hd] at this
        simp at this
        simp [hp, this]
      · rename_i c cs hd
        simp at h
        obtain ⟨⟨h1, h2⟩, h3⟩ := h
        subst h1 h2 h3
        have := List.take_append_drop n w
        rw [hd] at this
        refine ⟨?_, rfl, rfl, by simp⟩
        rw [hp, List.flatten_cons, List.flatten_cons, ← List.append_assoc, this]
    · rename_i hp
      split at h
      · simp at h
        obtain ⟨⟨h1, h2⟩, h3⟩ := h
        subst h1 h2 h3
        simp
      · simp at h

theorem fillLoop_spec (i : Nat) (b b' : Reader) (h : Reader.fillLoop i b = Outcome.ret b') :
    b'.unread = b.unread ∧ b'.rd.rerr = b.rd.rerr ∧ b'.rd.werr = b.rd.werr
      ∧ ((b'.err = b.err ∧ b'.buf ≠ []) ∨ (b'.err ≠ none ∧ b'.buf = b.buf)) := by
  induction i generalizing b with
  | zero =>
    simp [Reader.fillLoop] at h
    subst h
    simp [Reader.unread]
  | succ i ih =>
    unfold Reader.fillLoop at h
    split at h
    · rename_i data e p hr
      obtain ⟨h1, h2, h3, h4⟩ := Pipe_read_unread _ _ _ _ _ hr
      split at h
      · simp at h
        subst h
        have hd : data = [] := h4 (by simp)
        subst hd
        simp at h1
        simp [Reader.unread, h1, h2, h3]
      · split at h
        · rename_i hlen
          simp at h
          subst h
          have : data ≠ [] := by
            intro hd
            simp [hd] at hlen
          simp [Reader.unread, h1, h2, h3, this]
        · rename_i hlen
          have hd : data = [] := by
            cases data with
            | nil => rfl
            | cons x xs => simp at hlen
          subst hd
          simp at h1
          obtain ⟨k1, k2, k3, k4⟩ := ih _ h
          simp [Reader.unread, h1] at k1 ⊢
          refine ⟨?_, ?_, ?_, ?_⟩
          · rw [k1]
          · rw [k2]; exact h2
          · rw [k3]; exact h3
          · simpa using k4
    · simp at h
    · simp at h
    · simp at h

theorem fillLoop_ne_outOfFuel (i : Nat) (b : Reader) :
    Reader.fillLoop i b ≠ Outcome.outOfFuel ∧ Reader.fillLoop i b ≠ Outcome.panicked := by
  induction i generalizing b with
  | zero => simp [Reader.fillLoop]
  | succ i ih =>
    unfold Reader.fillLoop
    split
    · split
      · simp
      · split
        · simp
        · exact ih _
    · simp
    · rename_i hr
      unfold Pipe.read at hr
      split at hr
      · simp at hr
      · split at hr
        · split at hr <;> simp at hr
        · split at hr <;> simp at hr
    · rename_i hr
      unfold Pipe.read at hr
      split at hr
      · simp at hr
      · split at hr
        · split at hr <;> simp at hr
        · split at hr <;> simp at hr

/-- What `ReadByte` does, in every state: it never exhausts its loop bound and
never panics; a byte it returns is the first unread byte; an error it returns
comes with an empty buffer and consumes nothing. -/
theorem ReadByte_spec (r : Reader) :
    r.ReadByte ≠ Outcome.outOfFuel ∧ r.ReadByte ≠ Outcome.panicked ∧
    ∀ c e r', r.ReadByte = Outcome.ret ((c, e), r') →
      r'.rd.rerr = r.rd.rerr ∧ r'.rd.werr = r.rd.werr ∧
      (e = none → r.unread = c :: r'.unread ∧ r'.err = r.err) ∧
      (e ≠ none → r.buf = [] ∧ r'.buf = [] ∧ r'.err = none ∧ r'.unread = r.unread) := by
  unfold Reader.ReadByte
  cases hb : r.buf with
  | cons c cs =>
    simp [Reader.readByteLoop, hb]
    simp [Reader.unread, hb]
  | nil =>
    cases he : r.err with
    | some e0 =>
      simp [Reader.readByteLoop, hb, he]
      simp [Reader.unread, hb]
    | none =>
      have hfill : r.fill = Reader.fillLoop maxConsecutiveEmptyReads r := by
        simp [Reader.fill, hb, defaultBufSize]
      cases hf : Reader.fillLoop maxConsecutiveEmptyReads r with
      | outOfFuel => exact absurd hf (fillLoop_ne_outOfFuel _ _).1
      | panicked => exact absurd hf (fillLoop_ne_outOfFuel _ _).2
      | blocked => simp [Reader.readByteLoop, hb, he, hfill, hf]
      | ret b' =>
        obtain ⟨k1, k2, k3, k4⟩ := fillLoop_spec _ _ _ hf
        cases hb' : b'.buf with
        | cons c cs =>
          simp [Reader.readByteLoop, hb, he, hfill, hf, hb']
          rcases k4 with ⟨k5, _⟩ | ⟨_, k6⟩
          · simp only [Reader.unread, hb'] at k1
            simp [k2, k3, Reader.unread, ← k1, k5, he]
          · rw [hb, hb'] at k6
            simp at k6
        | nil =>
          rcases k4 with ⟨_, k6⟩ | ⟨k5, _⟩
          · exact absurd hb' k6
          · cases he' : b'.err with
            | none => exact absurd he' k5
            | some e1 =>
              simp [Reader.readByteLoop, hb, he, hfill, hf, hb', he']
              simp only [Reader.unread, hb'] at k1
              simp [k2, k3, Reader.unread, ← k1]

theorem ReadByte_total (r : Reader) : r.ReadByte ≠ Outcome.outOfFuel :=
  (ReadByte_spec r).1

theorem Pipe_read_fed (p : Pipe) (n : Nat) (c : Byte) (w : List Byte) (ws : List (List Byte))
    (hr : p.rerr = false) (hp : p.pending = (c :: w) :: ws) :
    ∃ data p', p.read (n + 1) = Outcome.ret ((c :: data, none), p') ∧
      p'.rerr = false ∧ p'.werr = p.werr ∧
      data ++ p'.pending.flatten = w ++ ws.flatten ∧
      ((∀ x ∈ ws, x ≠ []) → ∀ x ∈ p'.pending, x ≠ []) := by
  unfold Pipe.read
  simp only [hr, hp, List.drop_succ_cons, List.take_succ_cons]
  cases hd : w.drop n with
  | nil =>
    refine ⟨w.take n, { p with pending := ws }, by simp [hr], hr, rfl, ?_, fun h => h⟩
    have := List.take_append_drop n w
    rw [hd] at this
    simp at this
    simp [this]
  | cons x xs =>
    refine ⟨w.take n, { p with pending := (x :: xs) :: ws }, by simp [hr], hr, rfl, ?_, ?_⟩
    · have := List.take_append_drop n w
      rw [hd] at this
      simp only [List.flatten_cons]
      rw [← List.append_assoc, this]
    · intro h y hy
      simp at hy
      rcases hy with rfl | hy
      · simp
      · exact h y hy

theorem ReadByte_fed (r : Reader) (c : Byte) (rest : List Byte)
    (hf : r.Fed) (hu : r.unread = c :: rest) :
    ∃ r', r.ReadByte = Outcome.ret ((c, none), r') ∧ r'.unread = rest ∧ r'.Fed ∧
      r'.rd.werr = r.rd.werr ∧ (r.buf ≠ [] → r' = { r with buf := r.buf.tail }) := by
  obtain ⟨he, hr, hne⟩ := hf
  cases hb : r.buf with
  | cons c' cs =>
    simp only [Reader.unread, hb, List.cons_append, List.cons.injEq] at hu
    obtain ⟨rfl, hu⟩ := hu
    refine ⟨{ r with buf := cs }, ReadByte_cons r _ _ hb, ?_, ⟨he, hr, hne⟩, rfl, ?_⟩
    · simpa [Reader.unread] using hu
    · simp
  | nil =>
    simp only [Reader.unread, hb, List.nil_append] at hu
    cases hp : r.rd.pending with
    | nil => simp [hp] at hu
    | cons w ws =>
      have hw : w ≠ [] := hne w (by simp [hp])
      cases w with
      | nil => exact absurd rfl hw
      | cons c' w' =>
        simp only [hp, List.flatten_cons, List.cons_append, List.cons.injEq] at hu
        obtain ⟨rfl, hu⟩ := hu
        obtain ⟨data, p', h1, h2, h3, h4, h5⟩ := Pipe_read_fed r.rd 4095 _ _ _ hr hp
        have hws : ∀ x ∈ ws, x ≠ [] := fun x hx => hne x (by simp [hp, hx])
        refine ⟨{ buf := data, err := none, rd := p' }, ?_, ?_, ⟨rfl, h2, h5 hws⟩, h3, ?_⟩
        · have hfl : Reader.fillLoop (99 + 1) r
              = Outcome.ret { buf := c' :: data, err := none, rd := p' } := by
            rw [Reader.fillLoop]
            simp [hb, defaultBufSize, h1, he]
          simp [Reader.ReadByte, Reader.readByteLoop, hb, he, Reader.fill, defaultBufSize,
            maxConsecutiveEmptyReads, hfl]
        · simp [Reader.unread, h4, hu]
        · simp

/-! ## The scan loop of `NextLine` -/

theorem nextLineLoop_term (k : Nat) (b : Byte) (acc : List Byte) (r : Reader)
    (hb : b = CR ∨ b = LF) :
    nextLineLoop (k + 1) b acc r = Outcome.ret ((b, acc, none), r) := by
  unfold nextLineLoop
  have : ¬ (b ≠ CR ∧ b ≠ LF) := by
    rcases hb with h | h <;> simp [h]
  simp only [this, if_false]

theorem nextLineLoop_buf (s : List Byte) (t : Byte) (rest : List Byte) (fuel : Nat) (b : Byte)
    (acc : List Byte) (r : Reader) (hbuf : r.buf = s ++ t :: rest) (hs : NoTerm s)
    (ht : t = CR ∨ t = LF) (hb : b ≠ CR ∧ b ≠ LF) (hfuel : s.length + 2 ≤ fuel) :
    nextLineLoop fuel b acc r
      = Outcome.ret ((t, acc ++ s ++ [t], none), { r with buf := rest }) := by
  induction s generalizing fuel b acc r with
  | nil =>
    obtain ⟨k, rfl⟩ : ∃ k, fuel = k + 2 := ⟨fuel - 2, by simp at hfuel; omega⟩
    rw [nextLineLoop]
    rw [if_pos hb]
    rw [ReadByte_cons r t rest (by simpa using hbuf)]
    dsimp only
    rw [nextLineLoop_term _ _ _ _ ht]
    simp
  | cons x xs ih =>
    obtain ⟨k, rfl⟩ : ∃ k, fuel = k + 1 := ⟨fuel - 1, by simp at hfuel; omega⟩
    rw [nextLineLoop]
    rw [if_pos hb]
    rw [ReadByte_cons r x (xs ++ t :: rest) (by simpa using hbuf)]
    dsimp only
    rw [ih k x (acc ++ [x]) { r with buf := xs ++ t :: rest } rfl
      (fun y hy => hs y (by simp [hy])) (hs x (by simp)) (by simp at hfuel; omega)]
    simp

theorem nextLineLoop_fed (s : List Byte) (t : Byte) (rest : List Byte) (fuel : Nat) (b : Byte)
    (acc : List Byte) (r : Reader) (hf : r.Fed) (hu : r.unread = s ++ t :: rest)
    (hs : NoTerm s) (ht : t = CR ∨ t = LF) (hb : b ≠ CR ∧ b ≠ LF)
    (hfuel : s.length + 2 ≤ fuel) :
    ∃ r', nextLineLoop fuel b acc r = Outcome.ret ((t, acc ++ s ++ [t], none), r') ∧
      r'.unread = rest ∧ r'.Fed ∧ r'.rd.werr = r.rd.werr := by
  induction s generalizing fuel b acc r with
  | nil =>
    obtain ⟨k, rfl⟩ : ∃ k, fuel = k + 2 := ⟨fuel - 2, by simp at hfuel; omega⟩
    obtain ⟨r', h1, h2, h3, h4, _⟩ := ReadByte_fed r t rest hf (by simpa using hu)
    refine ⟨r', ?_, h2, h3, h4⟩
    rw [nextLineLoop]
    rw [if_pos hb]
    rw [h1]
    dsimp only
    rw [nextLineLoop_term _ _ _ _ ht]
    simp
  | cons x xs ih =>
    obtain ⟨k, rfl⟩ : ∃ k, fuel = k + 1 := ⟨fuel - 1, by simp at hfuel; omega⟩
    obtain ⟨r1, h1, h2, h3, h4, _⟩ := ReadByte_fed r x (xs ++ t :: rest) hf (by simpa using hu)
    obtain ⟨r', k1, k2, k3, k4⟩ := ih k x (acc ++ [x]) r1 h3 h2
      (fun y hy => hs y (by simp [hy])) (hs x (by simp)) (by simp at hfuel; omega)
    refine ⟨r', ?_, k2, k3, k4.trans h4⟩
    rw [nextLineLoop]
    rw [if_pos hb]
    rw [h1]
    dsimp only
    rw [k1]
    simp

/-- What the scan loop does in every state, started on a non-terminator scan
byte with enough rounds: it never exhausts the bound and never panics; when it
ends without error the scan byte is the first CR or LF of the unread bytes and
the accumulated bytes are those up to and including it; when it ends with an
error it has consumed every unread byte it could get and the buffer is empty. -/
theorem nextLineLoop_spec (fuel : Nat) (b : Byte) (acc : List Byte) (r : Reader)
    (hb : b ≠ CR ∧ b ≠ LF) (hfuel : r.unread.length < fuel) :
    nextLineLoop fuel b acc r ≠ Outcome.outOfFuel ∧
    nextLineLoop fuel b acc r ≠ Outcome.panicked ∧
    ∀ b' line e r', nextLineLoop fuel b acc r = Outcome.ret ((b', line, e), r') →
      r'.rd.rerr = r.rd.rerr ∧ r'.rd.werr = r.rd.werr ∧
      (e = none → (b' = CR ∨ b' = LF) ∧ r'.err = r.err ∧
        ∃ s, NoTerm s ∧ line = acc ++ s ++ [b'] ∧ r.unread = s ++ b' :: r'.unread) ∧
      (e ≠ none → r'.buf = [] ∧ r'.err = none ∧
        ∃ s, NoTerm s ∧ r.unread = s ++ r'.unread) := by
  induction fuel generalizing b acc r with
  | zero => omega
  | succ k ih =>
    obtain ⟨t1, t2, t3⟩ := ReadByte_spec r
    rw [nextLineLoop]
    rw [if_pos hb]
    cases hrb : r.ReadByte with
    | outOfFuel => exact absurd hrb t1
    | panicked => exact absurd hrb t2
    | blocked => simp
    | ret a =>
      obtain ⟨⟨c, e⟩, r1⟩ := a
      obtain ⟨u1, u2, u3, u4⟩ := t3 c e r1 hrb
      cases e with
      | some e0 =>
        obtain ⟨v1, v2, v3, v4⟩ := u4 (by simp)
        simp only [ne_eq, not_false_eq_true, Outcome.ret.injEq, Prod.mk.injEq, true_and,
          and_imp, reduceCtorEq]
        intro b' line e r' _ _ w3 w4
        subst w3 w4
        refine ⟨u1, u2, by simp, fun _ => ⟨v2, v3, [], by simp [NoTerm], by simp [v4]⟩⟩
      | none =>
        obtain ⟨v1, v2⟩ := u3 rfl
        dsimp only
        by_cases hc : c = CR ∨ c = LF
        · cases k with
          | zero =>
            rw [v1] at hfuel
            simp at hfuel
          | succ k =>
            rw [nextLineLoop_term _ _ _ _ hc]
            simp only [ne_eq, not_false_eq_true, Outcome.ret.injEq, Prod.mk.injEq, true_and,
              and_imp, reduceCtorEq]
            intro b' line e r' w1 w2 w3 w4
            subst w1 w2 w3 w4
            refine ⟨u1, u2, fun _ => ⟨hc, v2, [], by simp [NoTerm], by simp, by simp [v1]⟩,
              by simp⟩
        · have hc' : c ≠ CR ∧ c ≠ LF := by
            constructor
            · intro h; exact hc (Or.inl h)
            · intro h; exact hc (Or.inr h)
          have hlen : r1.unread.length < k := by
            rw [v1] at hfuel
            simp at hfuel
            omega
          obtain ⟨i1, i2, i3⟩ := ih c (acc ++ [c]) r1 hc' hlen
          refine ⟨i1, i2, ?_⟩
          intro b' line e r' hres
          obtain ⟨j1, j2, j3, j4⟩ := i3 b' line e r' hres
          refine ⟨j1.trans u1, j2.trans u2, ?_, ?_⟩
          · intro he
            obtain ⟨m1, m2, s, m3, m4, m5⟩ := j3 he
            refine ⟨m1, m2.trans v2, c :: s, ?_, by simp [m4], by simp [v1, m5]⟩
            intro y hy
            simp at hy
            rcases hy with rfl | hy
            · exact hc'
            · exact m3 y hy
          · intro he
            obtain ⟨m1, m2, s, m3, m5⟩ := j4 he
            refine ⟨m1, m2, c :: s, ?_, by simp [v1, m5]⟩
            intro y hy
            simp at hy
            rcases hy with rfl | hy
            · exact hc'
            · exact m3 y hy

/-! ## `NextLine` in terms of its scan loop -/

theorem zero_not_term : (0 : Byte) ≠ CR ∧ (0 : Byte) ≠ LF := by decide

theorem NextLine_of_scan_err (pb : parserBuffer) (b : Byte) (line : List Byte) (e : Error)
    (r : Reader)
    (h : nextLineLoop (pb.reader.unread.length + 1) 0 [] pb.reader
      = Outcome.ret ((b, line, some e), r)) :
    pb.NextLine = Outcome.ret (([], some e), { reader := r }) := by
  unfold parserBuffer.NextLine
  rw [h]

theorem NextLine_of_scan_more (pb : parserBuffer) (line : List Byte) (x : Byte)
    (r : Reader) (c : Byte) (cs : List Byte)
    (h : nextLineLoop (pb.reader.unread.length + 1) 0 [] pb.reader
      = Outcome.ret ((CR, line ++ [x], none), r))
    (hbuf : r.buf = c :: cs) :
    pb.NextLine = Outcome.ret ((line, none), { reader := { r with buf := cs } }) := by
  unfold parserBuffer.NextLine
  rw [h]
  dsimp only
  have hpos : CR = CR ∧ r.Buffered > 0 := by simp [Reader.Buffered, hbuf]
  rw [if_pos hpos, ReadByte_cons r c cs hbuf]
  dsimp only
  cases line with
  | nil => simp
  | cons y ys =>
    simp only [List.cons_append]
    rw [← List.cons_append, List.dropLast_concat]

theorem NextLine_of_scan_stop (pb : parserBuffer) (b : Byte) (line : List Byte) (x : Byte)
    (r : Reader)
    (h : nextLineLoop (pb.reader.unread.length + 1) 0 [] pb.reader
      = Outcome.ret ((b, line ++ [x], none), r))
    (hstop : b = LF ∨ r.buf = []) :
    pb.NextLine = Outcome.ret ((line, none), { reader := r }) := by
  unfold parserBuffer.NextLine
  rw [h]
  dsimp only
  have hneg : ¬ (b = CR ∧ r.Buffered > 0) := by
    rcases hstop with hb | hb
    · subst hb
      simp [CR, LF]
    · simp [Reader.Buffered, hb]
  rw [if_neg hneg]
  dsimp only
  cases line with
  | nil => simp
  | cons y ys =>
    simp only [List.cons_append]
    rw [← List.cons_append, List.dropLast_concat]

theorem NextLine_buf_lf (pb : parserBuffer) (s rest : List Byte)
    (hbuf : pb.reader.buf = s ++ LF :: rest) (hs : NoTerm s) :
    pb.NextLine = Outcome.ret ((s, none), { reader := { pb.reader with buf := rest } }) := by
  have h := nextLineLoop_buf s LF rest (pb.reader.unread.length + 1) 0 [] pb.reader hbuf hs
    (Or.inr rfl) zero_not_term (by simp [Reader.unread, hbuf])
  rw [List.nil_append] at h
  exact NextLine_of_scan_stop pb LF s LF _ h (Or.inl rfl)

theorem NextLine_buf_cr_last (pb : parserBuffer) (s : List Byte)
    (hbuf : pb.reader.buf = s ++ [CR]) (hs : NoTerm s) :
    pb.NextLine = Outcome.ret ((s, none), { reader := { pb.reader with buf := [] } }) := by
  have h := nextLineLoop_buf s CR [] (pb.reader.unread.length + 1) 0 [] pb.reader hbuf hs
    (Or.inl rfl) zero_not_term (by simp [Reader.unread, hbuf])
  rw [List.nil_append] at h
  exact NextLine_of_scan_stop pb CR s CR _ h (Or.inr rfl)

theorem NextLine_buf_cr_more (pb : parserBuffer) (s : List Byte) (x : Byte) (rest : List Byte)
    (hbuf : pb.reader.buf = s ++ CR :: x :: rest) (hs : NoTerm s) :
    pb.NextLine = Outcome.ret ((s, none), { reader := { pb.reader with buf := rest } }) := by
  have h := nextLineLoop_buf s CR (x :: rest) (pb.reader.unread.length + 1) 0 [] pb.reader
    hbuf hs (Or.inl rfl) zero_not_term (by simp [Reader.unread, hbuf])
  rw [List.nil_append] at h
  exact NextLine_of_scan_more pb s CR { pb.reader with buf := x :: rest } x rest h rfl

theorem nextLines_crlf_buf (lines : List (List Byte)) (tail : List Byte) (pb : parserBuffer)
    (hl : ∀ l ∈ lines, NoTerm l) (hbuf : pb.reader.buf = frame [CR, LF] lines ++ tail) :
    nextLines lines.length pb
      = Outcome.ret (lines.map (fun l => (l, none)),
          { reader := { pb.reader with buf := tail } }) := by
  induction lines generalizing pb with
  | nil =>
    simp only [frame, List.map_nil, List.flatten_nil, List.nil_append] at hbuf
    simp only [List.length_nil, nextLines, List.map_nil, ← hbuf]
  | cons l ls ih =>
    have hb : pb.reader.buf = l ++ CR :: LF :: (frame [CR, LF] ls ++ tail) := by
      simpa [frame] using hbuf
    have h1 := NextLine_buf_cr_more pb l LF _ hb (hl l (by simp))
    have h2 := ih { reader := { pb.reader with buf := frame [CR, LF] ls ++ tail } }
      (fun x hx => hl x (by simp [hx])) rfl
    simp only [List.length_cons, nextLines, h1, h2, List.map_cons]

/-- The call `NextLine` on a live stream whose unread bytes are `s`, a terminator `t`,
then `rest`, with `s` free of terminators: it returns `s`; what stays unread is
`rest`, less its first byte when `t` is CR and that byte was already buffered. -/
theorem NextLine_fed (pb : parserBuffer) (s : List Byte) (t : Byte) (rest : List Byte)
    (hf : pb.reader.Fed) (hu : pb.reader.unread = s ++ t :: rest) (hs : NoTerm s)
    (ht : t = CR ∨ t = LF) :
    ∃ pb', pb.NextLine = Outcome.ret ((s, none), pb') ∧ pb'.reader.Fed ∧
      pb'.reader.rd.werr = pb.reader.rd.werr ∧
      (pb'.reader.unread = rest ∨ (t = CR ∧ pb'.reader.unread = rest.tail)) ∧
      (t = LF → pb'.reader.unread = rest) := by
  obtain ⟨r', h1, h2, h3, h4⟩ := nextLineLoop_fed s t rest (pb.reader.unread.length + 1) 0 []
    pb.reader hf hu hs ht zero_not_term (by simp [hu])
  rw [List.nil_append] at h1
  by_cases hstop : t = LF ∨ r'.buf = []
  · exact ⟨{ reader := r' }, NextLine_of_scan_stop pb t s t r' h1 hstop, h3, h4,
      Or.inl h2, fun _ => h2⟩
  · have hcr : t = CR := by
      rcases ht with h | h
      · exact h
      · exact absurd (Or.inl h) hstop
    subst hcr
    cases hb : r'.buf with
    | nil => exact absurd (Or.inr hb) hstop
    | cons c cs =>
      refine ⟨{ reader := { r' with buf := cs } },
        NextLine_of_scan_more pb s CR r' c cs h1 hb, ⟨h3.1, h3.2.1, h3.2.2⟩, h4,
        Or.inr ⟨rfl, ?_⟩, fun h => absurd h (by decide)⟩
      simp only [Reader.unread, hb, List.cons_append] at h2
      simp [Reader.unread, ← h2]

theorem NextLine_fed_last (pb : parserBuffer) (s : List Byte) (t : Byte)
    (hf : pb.reader.Fed) (hu : pb.reader.unread = s ++ [t]) (hs : NoTerm s)
    (ht : t = CR ∨ t = LF) :
    ∃ pb', pb.NextLine = Outcome.ret ((s, none), pb') ∧ pb'.reader.Fed ∧
      pb'.reader.unread = [] := by
  obtain ⟨pb', h1, h2, _, h4, _⟩ := NextLine_fed pb s t [] hf hu hs ht
  refine ⟨pb', h1, h2, ?_⟩
  rcases h4 with h | ⟨_, h⟩
  · exact h
  · simpa using h

theorem nextLines_lf_fed (lines : List (List Byte)) (pb : parserBuffer)
    (hl : ∀ l ∈ lines, NoTerm l) (hf : pb.reader.Fed)
    (hu : pb.reader.unread = frame [LF] lines) :
    ∃ pb', nextLines lines.length pb = Outcome.ret (lines.map (fun l => (l, none)), pb') ∧
      pb'.reader.Fed ∧ pb'.reader.unread = [] := by
  induction lines generalizing pb with
  | nil =>
    refine ⟨pb, by simp [nextLines], hf, ?_⟩
    simpa [frame] using hu
  | cons l ls ih =>
    have hu' : pb.reader.unread = l ++ LF :: frame [LF] ls := by
      simpa [frame] using hu
    obtain ⟨pb1, h1, h2, _, _, h5⟩ := NextLine_fed pb l LF _ hf hu' (hl l (by simp)) (Or.inr rfl)
    obtain ⟨pb2, k1, k2, k3⟩ := ih pb1 (fun x hx => hl x (by simp [hx])) h2 (h5 rfl)
    refine ⟨pb2, ?_, k2, k3⟩
    simp only [List.length_cons, nextLines, h1, k1, List.map_cons]

theorem takeWhile_noTerm (s : List Byte) (t : Byte) (rest : List Byte) (hs : NoTerm s)
    (ht : t = CR ∨ t = LF) :
    (s ++ t :: rest).takeWhile (fun x => decide (x ≠ CR ∧ x ≠ LF)) = s := by
  induction s with
  | nil =>
    rcases ht with h | h <;> simp [h]
  | cons x xs ih =>
    have hx := hs x (by simp)
    simp only [List.cons_append]
    rw [List.takeWhile_cons_of_pos (by simpa using hx), ih (fun y hy => hs y (by simp [hy]))]

/-- A successful `NextLine`, in every state: the line is free of terminators and
the unread bytes were the line, a terminator, and a remainder. -/
theorem NextLine_ok_spec (pb : parserBuffer) (line : List Byte) (pb' : parserBuffer)
    (h : pb.NextLine = Outcome.ret ((line, none), pb')) :
    NoTerm line ∧ ∃ t rest, (t = CR ∨ t = LF) ∧ pb.reader.unread = line ++ t :: rest := by
  obtain ⟨_, _, h3⟩ := nextLineLoop_spec (pb.reader.unread.length + 1) 0 [] pb.reader
    zero_not_term (Nat.lt_succ_self _)
  cases hres : nextLineLoop (pb.reader.unread.length + 1) 0 [] pb.reader with
  | outOfFuel =>
    unfold parserBuffer.NextLine at h
    rw [hres] at h
    simp at h
  | panicked =>
    unfold parserBuffer.NextLine at h
    rw [hres] at h
    simp at h
  | blocked =>
    unfold parserBuffer.NextLine at h
    rw [hres] at h
    simp at h
  | ret a =>
    obtain ⟨⟨b, l, e⟩, r⟩ := a
    obtain ⟨_, _, k3, _⟩ := h3 b l e r hres
    cases e with
    | some e0 =>
      rw [NextLine_of_scan_err pb b l e0 r hres] at h
      simp at h
    | none =>
      obtain ⟨m1, _, s, m3, m4, m5⟩ := k3 rfl
      rw [List.nil_append] at m4
      subst m4
      have hline : pb.NextLine = Outcome.ret ((s, none), pb') ∨ line = s := by
        by_cases hstop : b = LF ∨ r.buf = []
        · right
          rw [NextLine_of_scan_stop pb b s b r hres hstop] at h
          simp at h
          exact h.1.symm
        · have hcr : b = CR := by
            rcases m1 with h' | h'
            · exact h'
            · exact absurd (Or.inl h') hstop
          subst hcr
          cases hb : r.buf with
          | nil => exact absurd (Or.inr hb) hstop
          | cons c cs =>
            right
            rw [NextLine_of_scan_more pb s CR r c cs hres hb] at h
            simp at h
            exact h.1.symm
      have hl : line = s := by
        rcases hline with h' | h'
        · rw [h'] at h
          simp at h
          exact h.symm
        · exact h'
      subst hl
      exact ⟨m3, b, r.unread, m1, m5⟩

/-! ## `NextLine` when the source fails before a terminator -/

theorem ReadByte_closed (r : Reader) (hb : r.buf = []) (he : r.err = none)
    (hr : r.rd.rerr = true) :
    r.ReadByte = Outcome.ret ((0, some Error.ErrClosedPipe), r) := by
  have hfl : Reader.fillLoop (99 + 1) r
      = Outcome.ret { buf := [], err := some Error.ErrClosedPipe, rd := r.rd } := by
    rw [Reader.fillLoop]
    simp [Pipe.read, hr, hb]
  obtain ⟨buf, err, rd⟩ := r
  simp only at hb he hr
  subst hb he
  simp [Reader.ReadByte, Reader.readByteLoop, Reader.fill, defaultBufSize,
    maxConsecutiveEmptyReads, hfl]

theorem ReadByte_werr (r : Reader) (e : Error) (hb : r.buf = []) (he : r.err = none)
    (hr : r.rd.rerr = false) (hp : r.rd.pending = []) (hw : r.rd.werr = some e) :
    r.ReadByte = Outcome.ret ((0, some e), r) := by
  have hfl : Reader.fillLoop (99 + 1) r
      = Outcome.ret { buf := [], err := some e, rd := r.rd } := by
    rw [Reader.fillLoop]
    simp [Pipe.read, hr, hb, hp, hw]
  obtain ⟨buf, err, rd⟩ := r
  simp only at hb he hr
  subst hb he
  simp [Reader.ReadByte, Reader.readByteLoop, Reader.fill, defaultBufSize,
    maxConsecutiveEmptyReads, hfl]

theorem nextLineLoop_closed (s : List Byte) (fuel : Nat) (b : Byte) (acc : List Byte)
    (r : Reader) (hbuf : r.buf = s) (he : r.err = none) (hr : r.rd.rerr = true)
    (hs : NoTerm s) (hb : b ≠ CR ∧ b ≠ LF) (hfuel : s.length < fuel) :
    nextLineLoop fuel b acc r
      = Outcome.ret ((0, acc ++ s, some Error.ErrClosedPipe), { r with buf := [] }) := by
  induction s generalizing fuel b acc r with
  | nil =>
    obtain ⟨k, rfl⟩ : ∃ k, fuel = k + 1 := ⟨fuel - 1, by simp at hfuel; omega⟩
    rw [nextLineLoop, if_pos hb, ReadByte_closed r hbuf he hr]
    obtain ⟨buf, err, rd⟩ := r
    simp only at hbuf
    subst hbuf
    simp
  | cons x xs ih =>
    obtain ⟨k, rfl⟩ : ∃ k, fuel = k + 1 := ⟨fuel - 1, by simp at hfuel; omega⟩
    rw [nextLineLoop, if_pos hb, ReadByte_cons r x xs hbuf]
    dsimp only
    rw [ih k x (acc ++ [x]) { r with buf := xs } rfl he hr
      (fun y hy => hs y (by simp [hy])) (hs x (by simp)) (by simp at hfuel; omega)]
    simp

theorem nextLineLoop_werr (s : List Byte) (e : Error) (fuel : Nat) (b : Byte)
    (acc : List Byte) (r : Reader) (hu : r.unread = s) (hf : r.Fed)
    (hw : r.rd.werr = some e) (hs : NoTerm s) (hb : b ≠ CR ∧ b ≠ LF)
    (hfuel : s.length < fuel) :
    nextLineLoop fuel b acc r
      = Outcome.ret ((0, acc ++ s, some e),
          { buf := [], err := none, rd := { pending := [], rerr := false, werr := some e } }) := by
  induction s generalizing fuel b acc r with
  | nil =>
    obtain ⟨k, rfl⟩ : ∃ k, fuel = k + 1 := ⟨fuel - 1, by simp at hfuel; omega⟩
    simp only [Reader.unread, List.append_eq_nil] at hu
    have hp : r.rd.pending = [] := by
      cases hp : r.rd.pending with
      | nil => rfl
      | cons w ws =>
        have hw' := hf.2.2 w (by simp [hp])
        have hfl := hu.2
        rw [hp] at hfl
        simp at hfl
        exact absurd hfl.1 hw'
    rw [nextLineLoop, if_pos hb, ReadByte_werr r e hu.1 hf.1 hf.2.1 hp hw]
    obtain ⟨buf, err, ⟨pending, rerr, werr⟩⟩ := r
    obtain ⟨h1, h2, _⟩ := hf
    simp only at hp hw h1 h2 hu
    obtain ⟨h3, _⟩ := hu
    subst hp hw h1 h2 h3
    simp
  | cons x xs ih =>
    obtain ⟨k, rfl⟩ : ∃ k, fuel = k + 1 := ⟨fuel - 1, by simp at hfuel; omega⟩
    obtain ⟨r1, h1, h2, h3, h4, _⟩ := ReadByte_fed r x xs hf hu
    rw [nextLineLoop, if_pos hb, h1]
    dsimp only
    rw [ih k x (acc ++ [x]) r1 h2 h3 (h4.trans hw)
      (fun y hy => hs y (by simp [hy])) (hs x (by simp)) (by simp at hfuel; omega)]
    simp

/-! ## The loop of `NextChunk` -/

theorem nextChunkLoop_buf (buf : List Byte) (fuel : Nat) (total n : Int) (data : List Byte)
    (r : Reader) (hbuf : r.buf = buf) (hfuel : buf.length < fuel) :
    nextChunkLoop fuel total n data r
      = Outcome.ret ((data ++ buf.take (n - total).toNat, none),
          { r with buf := buf.drop (n - total).toNat }) := by
  induction buf generalizing fuel total data r with
  | nil =>
    obtain ⟨k, rfl⟩ : ∃ k, fuel = k + 1 := ⟨fuel - 1, by simp at hfuel; omega⟩
    rw [nextChunkLoop]
    have hneg : ¬ (total < n ∧ r.Buffered > 0) := by simp [Reader.Buffered, hbuf]
    rw [if_neg hneg]
    cases r
    simp at hbuf
    simp [hbuf]
  | cons x xs ih =>
    obtain ⟨k, rfl⟩ : ∃ k, fuel = k + 1 := ⟨fuel - 1, by simp at hfuel; omega⟩
    rw [nextChunkLoop]
    by_cases hlt : total < n
    · have hpos : total < n ∧ r.Buffered > 0 := by simp [Reader.Buffered, hbuf, hlt]
      rw [if_pos hpos, ReadByte_cons r x xs hbuf]
      dsimp only
      rw [ih k (total + 1) (data ++ [x]) { r with buf := xs } rfl (by simp at hfuel; omega)]
      have hk : (n - total).toNat = (n - (total + 1)).toNat + 1 := by omega
      rw [hk]
      simp
    · have hneg : ¬ (total < n ∧ r.Buffered > 0) := by simp [hlt]
      rw [if_neg hneg]
      have hk : (n - total).toNat = 0 := by omega
      rw [hk]
      simp [← hbuf]

/-- The call `NextChunk(n)` in every state: it returns the first `max(n,0)` buffered
bytes (all of them when fewer are buffered), without error, and touches
nothing but the look-ahead buffer. -/
theorem NextChunk_eq (pb : parserBuffer) (n : Int) :
    pb.NextChunk n = Outcome.ret ((pb.reader.buf.take n.toNat, none),
      { reader := { pb.reader with buf := pb.reader.buf.drop n.toNat } }) := by
  unfold parserBuffer.NextChunk
  rw [nextChunkLoop_buf pb.reader.buf _ 0 n [] pb.reader rfl (by simp [Reader.Buffered])]
  simp

theorem NextChunk_total (pb : parserBuffer) (n : Int) :
    pb.NextChunk n ≠ Outcome.outOfFuel := by
  rw [NextChunk_eq]
  simp

theorem NextLine_total (pb : parserBuffer) :
    pb.NextLine ≠ Outcome.outOfFuel ∧ pb.NextLine ≠ Outcome.panicked := by
  obtain ⟨h1, h2, h3⟩ := nextLineLoop_spec (pb.reader.unread.length + 1) 0 [] pb.reader
    zero_not_term (Nat.lt_succ_self _)
  cases hres : nextLineLoop (pb.reader.unread.length + 1) 0 [] pb.reader with
  | outOfFuel => exact absurd hres h1
  | panicked => exact absurd hres h2
  | blocked =>
    unfold parserBuffer.NextLine
    rw [hres]
    simp
  | ret a =>
    obtain ⟨⟨b, l, e⟩, r⟩ := a
    obtain ⟨_, _, k3, _⟩ := h3 b l e r hres
    cases e with
    | some e0 =>
      rw [NextLine_of_scan_err pb b l e0 r hres]
      simp
    | none =>
      obtain ⟨m1, _, s, _, m4, _⟩ := k3 rfl
      rw [List.nil_append] at m4
      subst m4
      by_cases hstop : b = LF ∨ r.buf = []
      · rw [NextLine_of_scan_stop pb b s b r hres hstop]
        simp
      · have hcr : b = CR := by
          rcases m1 with h' | h'
          · exact h'
          · exact absurd (Or.inl h') hstop
        subst hcr
        cases hb : r.buf with
        | nil => exact absurd (Or.inr hb) hstop
        | cons c cs =>
          rw [NextLine_of_scan_more pb s CR r c cs hres hb]
          simp

/-! ## A failing source, `NextLine` and `NextChunk` -/

theorem nextChunkLoop_no_err (fuel : Nat) (total n : Int) (data : List Byte) (r : Reader)
    (resp : List Byte) (e : Option Error) (r' : Reader)
    (h : nextChunkLoop fuel total n data r = Outcome.ret ((resp, e), r')) :
    e = none := by
  induction fuel generalizing total data r with
  | zero => simp [nextChunkLoop] at h
  | succ k ih =>
    rw [nextChunkLoop] at h
    by_cases hc : total < n ∧ r.Buffered > 0
    · rw [if_pos hc] at h
      cases hb : r.buf with
      | nil => simp [Reader.Buffered, hb] at hc
      | cons c cs =>
        rw [ReadByte_cons r c cs hb] at h
        exact ih _ _ _ h
    · rw [if_neg hc] at h
      simp at h
      exact h.1.2.symm

/-! ## The states `NextLine` can return in -/

/-- Every return of `NextLine` comes from a return of its scan loop in some
state `r`; the state returned is `r`, or `r` less its first buffered byte. -/
theorem NextLine_ret_cases (pb : parserBuffer) (res : List Byte × Option Error)
    (pb' : parserBuffer) (h : pb.NextLine = Outcome.ret (res, pb')) :
    ∃ b l e r, nextLineLoop (pb.reader.unread.length + 1) 0 [] pb.reader
        = Outcome.ret ((b, l, e), r) ∧
      (pb'.reader = r ∨ ∃ c cs, r.buf = c :: cs ∧ pb'.reader = { r with buf := cs }) := by
  obtain ⟨_, _, h3⟩ := nextLineLoop_spec (pb.reader.unread.length + 1) 0 [] pb.reader
    zero_not_term (Nat.lt_succ_self _)
  cases hres : nextLineLoop (pb.reader.unread.length + 1) 0 [] pb.reader with
  | outOfFuel =>
    unfold parserBuffer.NextLine at h
    rw [hres] at h
    simp at h
  | panicked =>
    unfold parserBuffer.NextLine at h
    rw [hres] at h
    simp at h
  | blocked =>
    unfold parserBuffer.NextLine at h
    rw [hres] at h
    simp at h
  | ret a =>
    obtain ⟨⟨b, l, e⟩, r⟩ := a
    refine ⟨b, l, e, r, rfl, ?_⟩
    obtain ⟨_, _, k3, _⟩ := h3 b l e r hres
    cases e with
    | some e0 =>
      rw [NextLine_of_scan_err pb b l e0 r hres] at h
      simp at h
      left
      rw [← h.2]
    | none =>
      obtain ⟨m1, _, s, _, m4, _⟩ := k3 rfl
      rw [List.nil_append] at m4
      subst m4
      by_cases hstop : b = LF ∨ r.buf = []
      · rw [NextLine_of_scan_stop pb b s b r hres hstop] at h
        simp at h
        left
        rw [← h.2]
      · have hcr : b = CR := by
          rcases m1 with h' | h'
          · exact h'
          · exact absurd (Or.inl h') hstop
        subst hcr
        cases hb : r.buf with
        | nil => exact absurd (Or.inr hb) hstop
        | cons c cs =>
          rw [NextLine_of_scan_more pb s CR r c cs hres hb] at h
          simp at h
          right
          exact ⟨c, cs, rfl, by rw [← h.2]⟩

theorem NextLine_rerr (pb : parserBuffer) (res : List Byte × Option Error)
    (pb' : parserBuffer) (h : pb.NextLine = Outcome.ret (res, pb')) :
    pb'.reader.rd.rerr = pb.reader.rd.rerr := by
  obtain ⟨b, l, e, r, h1, h2⟩ := NextLine_ret_cases pb res pb' h
  obtain ⟨_, _, h3⟩ := nextLineLoop_spec (pb.reader.unread.length + 1) 0 [] pb.reader
    zero_not_term (Nat.lt_succ_self _)
  obtain ⟨k1, _, _, _⟩ := h3 b l e r h1
  rcases h2 with h2 | ⟨c, cs, _, h2⟩
  · rw [h2]
    exact k1
  · rw [h2]
    exact k1

/-! ## Claims -/

/-- C1: when the lines, each free of CR and LF and each followed by CR LF, are
exactly the content of the look-ahead buffer, as many `NextLine` calls as there
are lines return those lines in order, each without error, and leave the
buffer empty (so none of them can be returned again); the pipe is not touched. -/
theorem C1_crlf_lines_buffered (lines : List (List Byte)) (pb : parserBuffer)
    (hl : ∀ l ∈ lines, NoTerm l) (hbuf : pb.reader.buf = frame [CR, LF] lines) :
    nextLines lines.length pb
      = Outcome.ret (lines.map (fun l => (l, none)),
          { reader := { pb.reader with buf := [] } }) :=
  nextLines_crlf_buf lines [] pb hl (by simpa using hbuf)

theorem C1_crlf_lines_buffered_witness :
    nextLines 2 (mkBuffer (bytes "a\r\nb\r\n") [])
      = Outcome.ret ([(bytes "a", none), (bytes "b", none)], mkBuffer [] []) :=
  C1_crlf_lines_buffered [bytes "a", bytes "b"] (mkBuffer (bytes "a\r\nb\r\n") [])
    (by decide) rfl

/-- C2: for `0 ≤ n ≤` the number of buffered bytes, `NextChunk(n)` returns
exactly the first `n` buffered bytes without error and leaves exactly the rest
buffered; a following `NextChunk(m)` that the rest can serve returns the next
`m` bytes. -/
theorem C2_nextChunk_exact (pb : parserBuffer) (n : Int) (h0 : 0 ≤ n)
    (hlen : n ≤ pb.reader.buf.length) :
    ∃ pre suf, pb.reader.buf = pre ++ suf ∧ (pre.length : Int) = n ∧
      pb.NextChunk n
        = Outcome.ret ((pre, none), { reader := { pb.reader with buf := suf } }) ∧
      ∀ m : Int, 0 ≤ m → m ≤ suf.length →
        ∃ pre2 suf2, suf = pre2 ++ suf2 ∧ (pre2.length : Int) = m ∧
          parserBuffer.NextChunk { reader := { pb.reader with buf := suf } } m
            = Outcome.ret ((pre2, none), { reader := { pb.reader with buf := suf2 } }) := by
  refine ⟨pb.reader.buf.take n.toNat, pb.reader.buf.drop n.toNat,
    (List.take_append_drop _ _).symm, ?_, NextChunk_eq pb n, ?_⟩
  · rw [List.length_take]
    omega
  · intro m hm0 hm
    refine ⟨(pb.reader.buf.drop n.toNat).take m.toNat, (pb.reader.buf.drop n.toNat).drop m.toNat,
      (List.take_append_drop _ _).symm, ?_, NextChunk_eq _ m⟩
    rw [List.length_take]
    omega

theorem C2_nextChunk_exact_witness :
    ∃ pre suf, bytes "hello world" = pre ++ suf ∧ (pre.length : Int) = 5 ∧
      (mkBuffer (bytes "hello world") []).NextChunk 5
        = Outcome.ret ((pre, none),
            { reader := { (mkBuffer (bytes "hello world") []).reader with buf := suf } }) ∧
      ∀ m : Int, 0 ≤ m → m ≤ suf.length →
        ∃ pre2 suf2, suf = pre2 ++ suf2 ∧ (pre2.length : Int) = m ∧
          parserBuffer.NextChunk
              { reader := { (mkBuffer (bytes "hello world") []).reader with buf := suf } } m
            = Outcome.ret ((pre2, none),
                { reader := { (mkBuffer (bytes "hello world") []).reader with buf := suf2 } }) :=
  C2_nextChunk_exact (mkBuffer (bytes "hello world") []) 5 (by decide) (by decide)

/-- C3: when fewer than `n` bytes are buffered (possibly none), `NextChunk(n)`
returns all buffered bytes without error and leaves the buffer empty; the pipe,
whatever writes it has pending, and the reader's error are left as they were. -/
theorem C3_nextChunk_underflow (pb : parserBuffer) (n : Int)
    (h : (pb.reader.buf.length : Int) < n) :
    pb.NextChunk n
      = Outcome.ret ((pb.reader.buf, none), { reader := { pb.reader with buf := [] } }) := by
  rw [NextChunk_eq]
  have h1 : pb.reader.buf.length ≤ n.toNat := by omega
  rw [List.take_of_length_le h1, List.drop_of_length_le h1]

theorem C3_nextChunk_underflow_witness :
    (mkBuffer (bytes "abc") [bytes "defghij"]).NextChunk 10
      = Outcome.ret ((bytes "abc", none), mkBuffer [] [bytes "defghij"]) :=
  C3_nextChunk_underflow (mkBuffer (bytes "abc") [bytes "defghij"]) 10 (by decide)

/-- C4: for lines free of CR and LF, each followed by a single LF, and for every
way the resulting bytes are split between the look-ahead buffer and non-empty
writes still to come on an open stream, as many `NextLine` calls as there are
lines return exactly those lines in order, each without error, and consume the
whole stream. -/
theorem C4_lf_lines_any_delivery (lines : List (List Byte)) (pb : parserBuffer)
    (hl : ∀ l ∈ lines, NoTerm l) (hf : pb.reader.Fed)
    (hu : pb.reader.buf ++ pb.reader.rd.pending.flatten = frame [LF] lines) :
    ∃ pb', nextLines lines.length pb = Outcome.ret (lines.map (fun l => (l, none)), pb') ∧
      pb'.reader.buf = [] ∧ pb'.reader.rd.pending = [] := by
  obtain ⟨pb', h1, h2, h3⟩ := nextLines_lf_fed lines pb hl hf hu
  refine ⟨pb', h1, ?_, ?_⟩
  · simp only [Reader.unread, List.append_eq_nil] at h3
    exact h3.1
  · simp only [Reader.unread, List.append_eq_nil] at h3
    cases hp : pb'.reader.rd.pending with
    | nil => rfl
    | cons w ws =>
      have hw := h2.2.2 w (by simp [hp])
      have hfl := h3.2
      rw [hp] at hfl
      simp at hfl
      exact absurd hfl.1 hw

theorem C4_lf_lines_any_delivery_witness :
    ∃ pb', nextLines 2 (mkBuffer (bytes "a") [bytes "\n", bytes "b\n"])
        = Outcome.ret ([(bytes "a", none), (bytes "b", none)], pb') ∧
      pb'.reader.buf = [] ∧ pb'.reader.rd.pending = [] :=
  C4_lf_lines_any_delivery [bytes "a", bytes "b"]
    (mkBuffer (bytes "a") [bytes "\n", bytes "b\n"]) (by decide)
    ⟨rfl, rfl, by decide⟩ rfl

/-- C5: whenever `NextLine` returns without error, the returned string is
exactly the unread bytes that precede the first CR or LF of the stream: the
stream is the line, a terminator and a remainder, the line holds no CR or LF,
and a stream that starts with a terminator yields the empty string. -/
theorem C5_line_precedes_first_terminator (pb : parserBuffer) (line : List Byte)
    (pb' : parserBuffer) (h : pb.NextLine = Outcome.ret ((line, none), pb')) :
    (∃ t rest, (t = CR ∨ t = LF) ∧ pb.reader.unread = line ++ t :: rest) ∧
      line = pb.reader.unread.takeWhile (fun x => decide (x ≠ CR ∧ x ≠ LF)) ∧
      (∀ x ∈ line, x ≠ CR ∧ x ≠ LF) ∧
      (∀ t rest, pb.reader.unread = t :: rest → (t = CR ∨ t = LF) → line = []) := by
  obtain ⟨h1, t, rest, h2, h3⟩ := NextLine_ok_spec pb line pb' h
  have h4 := takeWhile_noTerm line t rest h1 h2
  refine ⟨⟨t, rest, h2, h3⟩, by rw [h3, h4], h1, ?_⟩
  intro t0 rest0 hu ht0
  rw [hu] at h3
  cases line with
  | nil => rfl
  | cons x xs =>
    simp only [List.cons_append, List.cons.injEq] at h3
    have hx := h1 x (by simp)
    rw [← h3.1] at hx
    rcases ht0 with h' | h'
    · exact absurd h' hx.1
    · exact absurd h' hx.2

theorem C5_line_precedes_first_terminator_witness :
    (∃ t rest, (t = CR ∨ t = LF) ∧
        (mkBuffer (bytes "GET") [bytes " /\r\nHost"]).reader.unread
          = bytes "GET /" ++ t :: rest) ∧
      bytes "GET /" = (mkBuffer (bytes "GET") [bytes " /\r\nHost"]).reader.unread.takeWhile
        (fun x => decide (x ≠ CR ∧ x ≠ LF)) ∧
      (∀ x ∈ bytes "GET /", x ≠ CR ∧ x ≠ LF) ∧
      (∀ t rest, (mkBuffer (bytes "GET") [bytes " /\r\nHost"]).reader.unread = t :: rest →
        (t = CR ∨ t = LF) → bytes "GET /" = []) :=
  C5_line_precedes_first_terminator (mkBuffer (bytes "GET") [bytes " /\r\nHost"])
    (bytes "GET /") (mkBuffer (bytes "Host") []) (by decide)

/-- C7: let `r` be the reader state at the instant the scan loop of `NextLine`
has read the terminating byte `b`.  If `b` is CR and the look-ahead buffer is
non-empty, exactly the first buffered byte is consumed as well; if `b` is CR
and the buffer is empty, or if `b` is LF, `NextLine` returns at once in state
`r`.  In each case the line is returned without error and the pipe `r.rd` is
left as it was. -/
theorem C7_tie_break (pb : parserBuffer) (b : Byte) (line : List Byte) (r : Reader)
    (h : nextLineLoop (pb.reader.unread.length + 1) 0 [] pb.reader
      = Outcome.ret ((b, line, none), r)) :
    (b = CR ∨ b = LF) ∧
    (b = CR → ∀ c cs, r.buf = c :: cs →
      pb.NextLine = Outcome.ret ((line.dropLast, none), { reader := { r with buf := cs } })) ∧
    (b = CR → r.buf = [] →
      pb.NextLine = Outcome.ret ((line.dropLast, none), { reader := r })) ∧
    (b = LF → pb.NextLine = Outcome.ret ((line.dropLast, none), { reader := r })) := by
  obtain ⟨_, _, h3⟩ := nextLineLoop_spec (pb.reader.unread.length + 1) 0 [] pb.reader
    zero_not_term (Nat.lt_succ_self _)
  obtain ⟨_, _, k3, _⟩ := h3 b line none r h
  obtain ⟨m1, _, s, _, m4, _⟩ := k3 rfl
  rw [List.nil_append] at m4
  subst m4
  rw [List.dropLast_concat]
  refine ⟨m1, ?_, ?_, ?_⟩
  · intro hb c cs hbuf
    subst hb
    exact NextLine_of_scan_more pb s CR r c cs h hbuf
  · intro _ hbuf
    exact NextLine_of_scan_stop pb b s b r h (Or.inr hbuf)
  · intro hb
    exact NextLine_of_scan_stop pb b s b r h (Or.inl hb)

theorem C7_tie_break_witness :
    (CR = CR ∨ CR = LF) ∧
    (CR = CR → ∀ c cs, (mkBuffer (bytes "\nb") [bytes "c\n"]).reader.buf = c :: cs →
      (mkBuffer (bytes "a\r\nb") [bytes "c\n"]).NextLine
        = Outcome.ret (((bytes "a\r").dropLast, none),
            { reader := { (mkBuffer (bytes "\nb") [bytes "c\n"]).reader with buf := cs } })) ∧
    (CR = CR → (mkBuffer (bytes "\nb") [bytes "c\n"]).reader.buf = [] →
      (mkBuffer (bytes "a\r\nb") [bytes "c\n"]).NextLine
        = Outcome.ret (((bytes "a\r").dropLast, none),
            { reader := (mkBuffer (bytes "\nb") [bytes "c\n"]).reader })) ∧
    (CR = LF → (mkBuffer (bytes "a\r\nb") [bytes "c\n"]).NextLine
        = Outcome.ret (((bytes "a\r").dropLast, none),
            { reader := (mkBuffer (bytes "\nb") [bytes "c\n"]).reader })) :=
  C7_tie_break (mkBuffer (bytes "a\r\nb") [bytes "c\n"]) CR (bytes "a\r")
    (mkBuffer (bytes "\nb") [bytes "c\n"]).reader (by decide)

/-- C6 (evaluation at the failing input): with `"a\rb\n"` buffered, the first
`NextLine` returns `"a"` and consumes `"a\rb"`, the second returns the empty
string and empties the buffer: the byte `b`, which belongs to no line
terminator, is consumed but never handed to the consumer. -/
theorem C6_byte_after_cr_is_dropped :
    nextLines 2 (mkBuffer (bytes "a\rb\n") [])
        = Outcome.ret ([(bytes "a", none), ([], none)], mkBuffer [] []) ∧
      (mkBuffer (bytes "a\rb\n") []).NextLine
        = Outcome.ret ((bytes "a", none), mkBuffer (bytes "\n") []) := by
  decide

/-- C8 (as stated, refuted): with `"a\r"` buffered and `"\nb\n"` written only
afterwards, the first `NextLine` returns `"a"` and leaves the LF unread, but the
next `NextLine` returns the empty string, not a line starting with LF and `b`. -/
theorem C8_counterexample :
    (mkBuffer (bytes "a\r") [bytes "\nb\n"]).NextLine
        = Outcome.ret ((bytes "a", none), mkBuffer [] [bytes "\nb\n"]) ∧
      (mkBuffer [] [bytes "\nb\n"]).NextLine
        = Outcome.ret (([], none), mkBuffer (bytes "b\n") []) ∧
      ¬ ∃ rest, ([] : List Byte) = LF :: bytes "b" ++ rest := by
  refine ⟨by decide, by decide, ?_⟩
  rintro ⟨rest, h⟩
  simp at h

/-- C8 (amended): if `s` followed by CR is all that is buffered and LF, `t` and
a terminator arrive only afterwards on the open stream (`s`, `t` free of CR and
LF), the first `NextLine` returns `s` without swallowing the LF; the LF then
ends an empty line, so the second `NextLine` returns the empty string and the
third returns `t`, each without error. -/
theorem C8_lone_cr_then_lf (pb : parserBuffer) (s t : List Byte) (term : Byte)
    (hs : NoTerm s) (ht : NoTerm t) (hterm : term = CR ∨ term = LF) (hf : pb.reader.Fed)
    (hbuf : pb.reader.buf = s ++ [CR])
    (hp : pb.reader.rd.pending.flatten = LF :: t ++ [term]) :
    pb.NextLine = Outcome.ret ((s, none), { reader := { pb.reader with buf := [] } }) ∧
      ∃ pb', nextLines 3 pb
          = Outcome.ret ([(s, none), ([], none), (t, none)], pb') ∧
        pb'.reader.buf = [] ∧ pb'.reader.rd.pending.flatten = [] := by
  have h1 := NextLine_buf_cr_last pb s hbuf hs
  have hf1 : Reader.Fed { pb.reader with buf := [] } := ⟨hf.1, hf.2.1, hf.2.2⟩
  have hu1 : Reader.unread { pb.reader with buf := [] } = [] ++ LF :: (t ++ [term]) := by
    simp [Reader.unread, hp]
  obtain ⟨pb2, k1, k2, _, _, k5⟩ := NextLine_fed { reader := { pb.reader with buf := [] } }
    [] LF (t ++ [term]) hf1 hu1 (by simp [NoTerm]) (Or.inr rfl)
  obtain ⟨pb3, m1, _, m3⟩ := NextLine_fed_last pb2 t term k2 (k5 rfl) ht hterm
  refine ⟨h1, pb3, ?_, ?_⟩
  · simp only [nextLines, h1, k1, m1]
  · simpa [Reader.unread] using m3

theorem C8_lone_cr_then_lf_witness :
    (mkBuffer (bytes "a\r") [bytes "\nb\n"]).NextLine
        = Outcome.ret ((bytes "a", none),
            { reader := { (mkBuffer (bytes "a\r") [bytes "\nb\n"]).reader with buf := [] } }) ∧
      ∃ pb', nextLines 3 (mkBuffer (bytes "a\r") [bytes "\nb\n"])
          = Outcome.ret ([(bytes "a", none), ([], none), (bytes "b", none)], pb') ∧
        pb'.reader.buf = [] ∧ pb'.reader.rd.pending.flatten = [] :=
  C8_lone_cr_then_lf (mkBuffer (bytes "a\r") [bytes "\nb\n"]) (bytes "a") (bytes "b") LF
    (by decide) (by decide) (Or.inr rfl) ⟨rfl, rfl, by decide⟩ rfl rfl

/-- C9: if `s` followed by CR is all that is buffered and `t` followed by CR is
written only afterwards on the open stream (`s`, `t` free of CR and LF), two
`NextLine` calls return `s` and then `t`, each without error. -/
theorem C9_bare_cr_framing (pb : parserBuffer) (s t : List Byte)
    (hs : NoTerm s) (ht : NoTerm t) (hf : pb.reader.Fed)
    (hbuf : pb.reader.buf = s ++ [CR])
    (hp : pb.reader.rd.pending.flatten = t ++ [CR]) :
    ∃ pb', nextLines 2 pb = Outcome.ret ([(s, none), (t, none)], pb') ∧
      pb'.reader.buf = [] ∧ pb'.reader.rd.pending.flatten = [] := by
  have h1 := NextLine_buf_cr_last pb s hbuf hs
  have hf1 : Reader.Fed { pb.reader with buf := [] } := ⟨hf.1, hf.2.1, hf.2.2⟩
  have hu1 : Reader.unread { pb.reader with buf := [] } = t ++ [CR] := by
    simp [Reader.unread, hp]
  obtain ⟨pb2, k1, _, k3⟩ := NextLine_fed_last { reader := { pb.reader with buf := [] } }
    t CR hf1 hu1 ht (Or.inl rfl)
  refine ⟨pb2, ?_, ?_⟩
  · simp only [nextLines, h1, k1]
  · simpa [Reader.unread] using k3

theorem C9_bare_cr_framing_witness :
    ∃ pb', nextLines 2 (mkBuffer (bytes "a\r") [bytes "b\r"])
        = Outcome.ret ([(bytes "a", none), (bytes "b", none)], pb') ∧
      pb'.reader.buf = [] ∧ pb'.reader.rd.pending.flatten = [] :=
  C9_bare_cr_framing (mkBuffer (bytes "a\r") [bytes "b\r"]) (bytes "a") (bytes "b")
    (by decide) (by decide) ⟨rfl, rfl, by decide⟩ rfl rfl

/-- C10: when no CR or LF is among the bytes `NextLine` can still get and the
source then fails (the read end has been closed, error `ErrClosedPipe`, with no
terminator buffered; or the write end has been closed with error `e` and no
terminator is buffered or pending), `NextLine` returns that error with the
empty string; the bytes it went through are not returned and not put back (the
buffer is empty afterwards, and so is the pipe when it was still open for
reading), and the next `NextLine` returns the same error and the empty string
again. -/
theorem C10_error_discards_partial_line (pb : parserBuffer) (e : Error)
    (herr : pb.reader.err = none)
    (hsrc : (pb.reader.rd.rerr = true ∧ e = Error.ErrClosedPipe ∧ NoTerm pb.reader.buf) ∨
      (pb.reader.rd.rerr = false ∧ pb.reader.rd.werr = some e ∧
        (∀ w ∈ pb.reader.rd.pending, w ≠ []) ∧ NoTerm pb.reader.unread)) :
    ∃ pb', pb.NextLine = Outcome.ret (([], some e), pb') ∧
      pb'.reader.buf = [] ∧
      (pb.reader.rd.rerr = false → pb'.reader.rd.pending = []) ∧
      pb'.NextLine = Outcome.ret (([], some e), pb') := by
  rcases hsrc with ⟨hr, he, hs⟩ | ⟨hr, hw, hne, hs⟩
  · subst he
    have h1 := nextLineLoop_closed pb.reader.buf (pb.reader.unread.length + 1) 0 []
      pb.reader rfl herr hr hs zero_not_term (by simp [Reader.unread]; omega)
    have h2 := nextLineLoop_closed [] (Reader.unread { pb.reader with buf := [] }).length.succ
      0 [] { pb.reader with buf := [] } rfl herr hr (by simp [NoTerm]) zero_not_term
      (by simp)
    refine ⟨{ reader := { pb.reader with buf := [] } },
      NextLine_of_scan_err pb _ _ _ _ h1, rfl, ?_,
      NextLine_of_scan_err { reader := { pb.reader with buf := [] } } _ _ _ _ h2⟩
    intro h
    rw [hr] at h
    simp at h
  · have h1 := nextLineLoop_werr pb.reader.unread e (pb.reader.unread.length + 1) 0 []
      pb.reader rfl ⟨herr, hr, hne⟩ hw hs zero_not_term (Nat.lt_succ_self _)
    have h2 := nextLineLoop_werr [] e 1 0 []
      { buf := [], err := none, rd := { pending := [], rerr := false, werr := some e } }
      rfl ⟨rfl, rfl, by simp⟩ rfl (by simp [NoTerm]) zero_not_term (by simp)
    exact ⟨_, NextLine_of_scan_err pb _ _ _ _ h1, rfl, fun _ => rfl,
      NextLine_of_scan_err _ _ _ _ _ h2⟩

theorem C10_error_discards_partial_line_witness :
    ∃ pb', (mkEnding (bytes "ab") [bytes "cd"] Error.EOF).NextLine
        = Outcome.ret (([], some Error.EOF), pb') ∧
      pb'.reader.buf = [] ∧
      ((mkEnding (bytes "ab") [bytes "cd"] Error.EOF).reader.rd.rerr = false →
        pb'.reader.rd.pending = []) ∧
      pb'.NextLine = Outcome.ret (([], some Error.EOF), pb') :=
  C10_error_discards_partial_line (mkEnding (bytes "ab") [bytes "cd"] Error.EOF) Error.EOF
    rfl (Or.inr ⟨rfl, rfl, by decide, by decide⟩)

/-- C12 (evaluation at the failing input): with `"a\nb\n"` buffered when `Stop`
is called, the next two `NextLine` calls return `"a"` and `"b"` with no error;
only the third, on the empty buffer, returns `ErrClosedPipe`. -/
theorem C12_buffered_lines_survive_stop :
    (mkBuffer (bytes "a\nb\n") []).Stop.NextLine
        = Outcome.ret ((bytes "a", none), (mkBuffer (bytes "b\n") []).Stop) ∧
      nextLines 3 (mkBuffer (bytes "a\nb\n") []).Stop
        = Outcome.ret ([(bytes "a", none), (bytes "b", none),
            ([], some Error.ErrClosedPipe)], (mkBuffer [] []).Stop) := by
  decide

/-- C13 (as stated, refuted): with `"abc"` buffered when `Stop` is called,
`NextChunk(2)` returns `"ab"` with no error, and on an empty buffer after
`Stop` it returns the empty string with no error. -/
theorem C13_counterexample :
    (mkBuffer (bytes "abc") []).Stop.NextChunk 2
        = Outcome.ret ((bytes "ab", none), (mkBuffer (bytes "c") []).Stop) ∧
      (mkBuffer [] []).Stop.NextChunk 2
        = Outcome.ret (([], none), (mkBuffer [] []).Stop) := by
  decide

/-- C13 (amended): once the stream is Closed, every `NextChunk(n)` returns, with
no error, the first `max(n,0)` bytes of the look-ahead buffer (all of it when
it holds fewer, the empty string when it is empty) and leaves the rest
buffered; the stream stays Closed. -/
theorem C13_nextChunk_after_stop (pb : parserBuffer) (n : Int) (hc : pb.Closed) :
    pb.NextChunk n = Outcome.ret ((pb.reader.buf.take n.toNat, none),
        { reader := { pb.reader with buf := pb.reader.buf.drop n.toNat } }) ∧
      parserBuffer.Closed { reader := { pb.reader with buf := pb.reader.buf.drop n.toNat } } ∧
      (pb.reader.buf.take n.toNat).length = min n.toNat pb.reader.buf.length :=
  ⟨NextChunk_eq pb n, hc, List.length_take _ _⟩

theorem C13_nextChunk_after_stop_witness :
    (mkBuffer (bytes "abc") [bytes "d"]).Stop.NextChunk 2
        = Outcome.ret (((mkBuffer (bytes "abc") [bytes "d"]).Stop.reader.buf.take (2 : Int).toNat,
            none),
          { reader := { (mkBuffer (bytes "abc") [bytes "d"]).Stop.reader with
              buf := (mkBuffer (bytes "abc") [bytes "d"]).Stop.reader.buf.drop (2 : Int).toNat } }) ∧
      parserBuffer.Closed
        { reader := { (mkBuffer (bytes "abc") [bytes "d"]).Stop.reader with
            buf := (mkBuffer (bytes "abc") [bytes "d"]).Stop.reader.buf.drop (2 : Int).toNat } } ∧
      ((mkBuffer (bytes "abc") [bytes "d"]).Stop.reader.buf.take (2 : Int).toNat).length
        = min (2 : Int).toNat (mkBuffer (bytes "abc") [bytes "d"]).Stop.reader.buf.length :=
  C13_nextChunk_after_stop (mkBuffer (bytes "abc") [bytes "d"]).Stop 2 (by decide)

/-- C14: `Stop` makes the stream Closed, and on a Closed stream every `Write`
fails with `ErrClosedPipe`, reports 0 bytes written and leaves the whole state
as it was (so no later read can get any of its bytes: a pipe read on a Closed
stream returns no byte either); the stream is still Closed after every
`NextLine`, `NextChunk`, `Write` and repeated `Stop`. -/
theorem C14_closed_is_terminal (pb : parserBuffer) (hc : pb.Closed) :
    (∀ q : parserBuffer, q.Stop.Closed) ∧
    (∀ data, pb.Write data = ((0, some Error.ErrClosedPipe), pb)) ∧
    (∀ n, pb.reader.rd.read n
      = Outcome.ret (([], some Error.ErrClosedPipe), pb.reader.rd)) ∧
    (∀ res pb', pb.NextLine = Outcome.ret (res, pb') → pb'.Closed) ∧
    (∀ n res pb', pb.NextChunk n = Outcome.ret (res, pb') → pb'.Closed) ∧
    (∀ data, (pb.Write data).2.Closed) ∧
    pb.Stop.Closed ∧ pb.Stop = pb := by
  have hc' : pb.reader.rd.rerr = true := hc
  have hw : ∀ data, pb.Write data = ((0, some Error.ErrClosedPipe), pb) := by
    intro data
    simp [parserBuffer.Write, Pipe.write, hc']
  refine ⟨fun q => rfl, hw, ?_, ?_, ?_, ?_, rfl, ?_⟩
  · intro n
    simp [Pipe.read, hc']
  · intro res pb' h
    have := NextLine_rerr pb res pb' h
    exact this.trans hc'
  · intro n res pb' h
    rw [NextChunk_eq] at h
    simp at h
    rw [← h.2]
    exact hc
  · intro data
    rw [hw data]
    exact hc
  · obtain ⟨⟨buf, err, ⟨pending, rerr, werr⟩⟩⟩ := pb
    simp only at hc'
    subst hc'
    rfl

theorem C14_closed_is_terminal_witness :
    (∀ q : parserBuffer, q.Stop.Closed) ∧
    (∀ data, (mkBuffer (bytes "a\n") [bytes "b"]).Stop.Write data
      = ((0, some Error.ErrClosedPipe), (mkBuffer (bytes "a\n") [bytes "b"]).Stop)) ∧
    (∀ n, (mkBuffer (bytes "a\n") [bytes "b"]).Stop.reader.rd.read n
      = Outcome.ret (([], some Error.ErrClosedPipe),
          (mkBuffer (bytes "a\n") [bytes "b"]).Stop.reader.rd)) ∧
    (∀ res pb', (mkBuffer (bytes "a\n") [bytes "b"]).Stop.NextLine = Outcome.ret (res, pb') →
      pb'.Closed) ∧
    (∀ n res pb', (mkBuffer (bytes "a\n") [bytes "b"]).Stop.NextChunk n
      = Outcome.ret (res, pb') → pb'.Closed) ∧
    (∀ data, ((mkBuffer (bytes "a\n") [bytes "b"]).Stop.Write data).2.Closed) ∧
    (mkBuffer (bytes "a\n") [bytes "b"]).Stop.Stop.Closed ∧
    (mkBuffer (bytes "a\n") [bytes "b"]).Stop.Stop = (mkBuffer (bytes "a\n") [bytes "b"]).Stop :=
  C14_closed_is_terminal (mkBuffer (bytes "a\n") [bytes "b"]).Stop (by decide)

/-- C16: `NextLine` never panics, in any state; and whenever its scan loop ends
without error (so that control reaches the truncation), on scan byte `b` with
`line` accumulated, `b` is CR or LF, `line` is non-empty with last byte `b`,
all bytes before it are free of CR and LF, and `NextLine` returns `line`
without that last byte, with no error. -/
theorem C16_truncation_in_range (pb : parserBuffer) :
    pb.NextLine ≠ Outcome.panicked ∧
    ∀ b line r, nextLineLoop (pb.reader.unread.length + 1) 0 [] pb.reader
        = Outcome.ret ((b, line, none), r) →
      (b = CR ∨ b = LF) ∧ line ≠ [] ∧ line.getLast? = some b ∧
        line = line.dropLast ++ [b] ∧ NoTerm line.dropLast ∧
        ∃ pb', pb.NextLine = Outcome.ret ((line.dropLast, none), pb') := by
  refine ⟨(NextLine_total pb).2, ?_⟩
  intro b line r h
  obtain ⟨_, _, h3⟩ := nextLineLoop_spec (pb.reader.unread.length + 1) 0 [] pb.reader
    zero_not_term (Nat.lt_succ_self _)
  obtain ⟨_, _, k3, _⟩ := h3 b line none r h
  obtain ⟨m1, _, s, m3, m4, _⟩ := k3 rfl
  rw [List.nil_append] at m4
  subst m4
  rw [List.dropLast_concat]
  refine ⟨m1, by simp, by simp, rfl, m3, ?_⟩
  by_cases hstop : b = LF ∨ r.buf = []
  · exact ⟨_, NextLine_of_scan_stop pb b s b r h hstop⟩
  · have hcr : b = CR := by
      rcases m1 with h' | h'
      · exact h'
      · exact absurd (Or.inl h') hstop
    subst hcr
    cases hb : r.buf with
    | nil => exact absurd (Or.inr hb) hstop
    | cons c cs => exact ⟨_, NextLine_of_scan_more pb s CR r c cs h hb⟩

theorem C16_truncation_in_range_witness :
    (CR = CR ∨ CR = LF) ∧ bytes "a\r" ≠ [] ∧ (bytes "a\r").getLast? = some CR ∧
      bytes "a\r" = (bytes "a\r").dropLast ++ [CR] ∧ NoTerm (bytes "a\r").dropLast ∧
      ∃ pb', (mkBuffer (bytes "a\r\nb") [bytes "c\n"]).NextLine
        = Outcome.ret (((bytes "a\r").dropLast, none), pb') :=
  (C16_truncation_in_range (mkBuffer (bytes "a\r\nb") [bytes "c\n"])).2 CR (bytes "a\r")
    (mkBuffer (bytes "\nb") [bytes "c\n"]).reader (by decide)

/-- C17: in every state (Open or Closed, any buffer, any sticky error) and for
every `n`, `NextChunk(n)` returns with no error the first `min(max(n,0),
buffered)` bytes of the look-ahead buffer and leaves the pipe and the error
untouched; its loop never ends on an error; for `n ≤ 0` the result is the
empty string and the state is unchanged. -/
theorem C17_nextChunk_never_fails (pb : parserBuffer) (n : Int) :
    pb.NextChunk n = Outcome.ret ((pb.reader.buf.take n.toNat, none),
        { reader := { pb.reader with buf := pb.reader.buf.drop n.toNat } }) ∧
      (pb.reader.buf.take n.toNat).length = min n.toNat pb.reader.buf.length ∧
      n.toNat = max n 0 ∧
      (∀ fuel total data r resp e r',
        nextChunkLoop fuel total n data r = Outcome.ret ((resp, e), r') → e = none) ∧
      (n ≤ 0 → pb.NextChunk n = Outcome.ret (([], none), pb)) := by
  refine ⟨NextChunk_eq pb n, List.length_take _ _, by omega,
    fun fuel total data r resp e r' h => nextChunkLoop_no_err fuel total n data r resp e r' h,
    ?_⟩
  intro hn
  rw [NextChunk_eq]
  have h0 : n.toNat = 0 := by omega
  rw [h0]
  simp

end Gossip
